import Mathlib

/-!
Verification of the time-series core (`src/lib.rs`, `src/index.rs` of
`timeseries.rs`) against its specification.

The Rust code is shallowly embedded: vectors become lists, i64 timestamps
become `Int`, f64 values become `Rat` (every operation the core performs on
values — copying, subtraction, equality — is exact on the payloads it is
given, and rationals have no NaN).  Fallible or aborting operations return
`Option`/`Except`.  Spec-side descriptions used for refinement statements
(`strictIncFrom`, `strictInc`, `mergeSpec`, `isOccurrenceList`) are named and
documented as such.
-/

namespace Timeseries

/-- Model of `DataPoint` (src/lib.rs): a timestamp in milliseconds paired
with a value. -/
structure DataPoint where
  timestamp : Int
  value : Rat
deriving DecidableEq, Repr, Inhabited

/-- Model of `DateTimeIndex` (src/index.rs): an owned vector of i64
timestamps. -/
structure DateTimeIndex where
  values : List Int
deriving DecidableEq, Repr

/-- Model of `DateTimeIndex::new` (src/index.rs): stores the timestamps as
given — no monotonicity check and no truncation happen here. -/
def DateTimeIndex.new (values : List Int) : DateTimeIndex := ⟨values⟩

/-- Model of `DateTimeIndex::len`. -/
def DateTimeIndex.len (idx : DateTimeIndex) : Nat := idx.values.length

/-- The adjacent differences `y - x` of consecutive timestamps, as built
inside `DateTimeIndex::infer_sample_rate` by
`values.iter().zip(values.iter().skip(1)).map(|(x,y)| y-x)`. -/
def DateTimeIndex.diffs (idx : DateTimeIndex) : List Int :=
  List.zipWith (fun x y => y - x) idx.values (idx.values.drop 1)

/-- The `for (key, val) in &occurrences` scan of `infer_sample_rate`
(src/index.rs): starting from `max = (0, 0)`, an entry replaces `max`
whenever its count is strictly larger.  The i64 counts are occurrence counts,
hence nonnegative, and are modelled as `Nat`. -/
def rateFold (entries : List (Int × Nat)) : Int × Nat :=
  entries.foldl (fun max e => if e.2 > max.2 then e else max) (0, 0)

/-- The contents of the `occurrences: HashMap<i64, i64>` of
`infer_sample_rate`, listed in some iteration order: the keys enumerate the
distinct adjacent differences and each count is the number of occurrences of
its key.  Rust leaves the HashMap iteration order unspecified, so the model
quantifies over every enumeration satisfying this description. -/
abbrev isOccurrenceList (diffs : List Int) (entries : List (Int × Nat)) : Prop :=
  (entries.map Prod.fst).Perm diffs.dedup ∧ ∀ e ∈ entries, e.2 = diffs.count e.1

/-- Model of `DateTimeIndex::infer_sample_rate` (src/index.rs): fold the
max-count scan over the occurrence entries and return the winning key.  The
unspecified HashMap iteration order is passed in as `entries`; theorems
constrain it with `isOccurrenceList`. -/
def DateTimeIndex.infer_sample_rate (_idx : DateTimeIndex)
    (entries : List (Int × Nat)) : Int :=
  (rateFold entries).1

/-- Model of `impl Index<usize> for DateTimeIndex` (src/index.rs): returns
`&self.values[pos]`.  Rust `Vec` indexing aborts the process when `pos` is
out of bounds; `.error` models that abort and `.ok` a successful access. -/
def DateTimeIndex.indexGet (idx : DateTimeIndex) (pos : Nat) : Except String Int :=
  match idx.values[pos]? with
  | some v => Except.ok v
  | none => Except.error "index out of bounds"

/-- Model of `TimeSeries` (src/lib.rs): an index paired with a vector of
values. -/
structure TimeSeries where
  index : DateTimeIndex
  values : List Rat
deriving DecidableEq, Repr

/-- Model of `Vec::resize(new_len, value)`: truncate when shrinking, pad with
`value` when growing. -/
def listResize (v : List Rat) (n : Nat) (fill : Rat) : List Rat :=
  v.take n ++ List.replicate (n - v.length) fill

/-- Model of `TimeSeries::new` (src/lib.rs): the index is stored as given;
when the two lengths differ, the values vector is resized to the index length
(`vs.resize(index.len(), 0.0)`).  No monotonicity check or prefix truncation
happens here. -/
def TimeSeries.new (index : List Int) (values : List Rat) : TimeSeries :=
  if index.length ≠ values.length then
    { index := DateTimeIndex.new index, values := listResize values index.length 0 }
  else
    { index := DateTimeIndex.new index, values := values }

/-- Model of `TimeSeries::empty` (src/lib.rs). -/
def TimeSeries.empty : TimeSeries := TimeSeries.new [] []

/-- Model of `TimeSeries::len` (src/lib.rs): the index length. -/
def TimeSeries.len (ts : TimeSeries) : Nat := ts.index.len

/-- Model of `TimeSeries::nth` (src/lib.rs):
`Some(DataPoint::new(self.index[pos], self.values[pos]))` when
`pos < self.len()`, `None` otherwise.  Under the guard the index access is in
bounds, and so is the values access for every series whose values have the
index's length (`TimeSeries.wf`); the `getD` defaults are never reached on
such series. -/
def TimeSeries.nth (ts : TimeSeries) (pos : Nat) : Option DataPoint :=
  if pos < ts.len then
    some ⟨ts.index.values.getD pos 0, ts.values.getD pos 0⟩
  else none

/-- Length agreement between the values and the index; every series built by
the public constructors satisfies it (claim C5). -/
def TimeSeries.wf (ts : TimeSeries) : Prop :=
  ts.values.length = ts.index.values.length

/-- The size-scanning loop of `TimeSeries::from_datapoints` (src/lib.rs):
`size` starts at 1 and, for `i` in `1..len`, the loop stops at the first
`datapoints[i].timestamp <= datapoints[i-1].timestamp`, otherwise setting
`size = i + 1`. -/
def fdLoop (dps : List DataPoint) (i size : Nat) : Nat :=
  if _h : i < dps.length then
    if (dps.getD i default).timestamp ≤ (dps.getD (i - 1) default).timestamp then size
    else fdLoop dps (i + 1) (i + 1)
  else size
termination_by dps.length - i

/-- Model of `TimeSeries::from_datapoints` (src/lib.rs): keep the first
`size` records and split them into the index and the values. -/
def TimeSeries.from_datapoints (dps : List DataPoint) : TimeSeries :=
  { index := DateTimeIndex.new ((dps.take (fdLoop dps 1 1)).map DataPoint.timestamp),
    values := (dps.take (fdLoop dps 1 1)).map DataPoint.value }

/-- Model of `TimeSeries::diff` (src/lib.rs): the empty series when the
length is below 2; otherwise the tail of the index paired with the
consecutive value differences (the loop writes `values[i] - values[i-1]` to
position `i - 1` for `i` in `1..len`). -/
def TimeSeries.diff (ts : TimeSeries) : TimeSeries :=
  if ts.len < 2 then TimeSeries.empty
  else
    TimeSeries.new (ts.index.values.drop 1)
      ((List.range (ts.len - 1)).map
        (fun i => ts.values.getD (i + 1) 0 - ts.values.getD i 0))

/-- Model of `Iterator::position`: the index of the first element satisfying
the predicate. -/
def position (p : Int → Bool) : List Int → Option Nat
  | [] => none
  | x :: xs => if p x then some 0 else (position p xs).map (· + 1)

/-- Model of `TimeSeries::at` (src/lib.rs): `pos` is the position of the
first index timestamp strictly exceeding the query (`len` when none does);
the result is `values[pos - 1]` when `pos > 0` and `0.0` otherwise. -/
def TimeSeries.at (ts : TimeSeries) (timestamp : Int) : Rat :=
  let pos := match position (fun t => decide (timestamp < t)) ts.index.values with
    | some idx => idx
    | none => ts.len
  if pos > 0 then ts.values.getD (pos - 1) 0 else 0

/-- The stream of points produced by `TimeSeries::iter` (src/lib.rs), which
yields `DataPoint::new(index[i], values[i])` for each `i` below the length:
for a well-formed series this is the zip of the index with the values. -/
def TimeSeries.toDataPoints (ts : TimeSeries) : List DataPoint :=
  List.zipWith DataPoint.mk ts.index.values ts.values

/-- The cursor loop of `TimeSeries::merge` (src/lib.rs).  The Rust loop tests
`pos1 == self.len()` and `pos2 == other.len()`; the cursors never move past
the lengths, and the model writes `≤` for those tests so the function is
total on all arguments.  `(… .nth …).getD default` models an `unwrap()` of an
access the guards have just shown to be in range. -/
def TimeSeries.mergeLoop (a b : TimeSeries) (pos1 pos2 : Nat) : List DataPoint :=
  if _h : pos1 < a.len ∨ pos2 < b.len then
    if _h1 : a.len ≤ pos1 then
      (b.nth pos2).getD default :: TimeSeries.mergeLoop a b pos1 (pos2 + 1)
    else if _h2 : b.len ≤ pos2 then
      (a.nth pos1).getD default :: TimeSeries.mergeLoop a b (pos1 + 1) pos2
    else
      let dp1 := (a.nth pos1).getD default
      let dp2 := (b.nth pos2).getD default
      if dp1.timestamp = dp2.timestamp then
        dp1 :: TimeSeries.mergeLoop a b (pos1 + 1) (pos2 + 1)
      else if dp1.timestamp < dp2.timestamp then
        dp1 :: TimeSeries.mergeLoop a b (pos1 + 1) pos2
      else
        dp2 :: TimeSeries.mergeLoop a b pos1 (pos2 + 1)
  else []
termination_by a.len - pos1 + (b.len - pos2)
decreasing_by all_goals omega

/-- Model of `TimeSeries::merge` (src/lib.rs): run the cursor loop from the
start of both series and rebuild a series from the emitted points via
`from_datapoints`. -/
def TimeSeries.merge (a b : TimeSeries) : TimeSeries :=
  TimeSeries.from_datapoints (TimeSeries.mergeLoop a b 0 0)

/-- Model of `impl PartialEq for TimeSeries` (src/lib.rs).  The code compares
`self.index == other.index && self.values == self.values`: the second
comparison reads `self`'s values on both sides.  On f64 a vector compares
equal to itself exactly when it holds no NaN; in the rational model the
second conjunct is always true. -/
def TimeSeries.tsEq (a b : TimeSeries) : Bool :=
  decide (a.index.values = b.index.values) && decide (a.values = a.values)

/-- Model of `impl PartialEq for DataPoint` (src/lib.rs): compares
`self.timestamp == other.timestamp && self.value == self.value`, the second
conjunct again reading `self` on both sides. -/
def DataPoint.dpEq (p q : DataPoint) : Bool :=
  decide (p.timestamp = q.timestamp) && decide (p.value = p.value)

/-- Spec-side description (claim C4): the records of a stream following a
previous timestamp `prev`, up to but not including the first record whose
timestamp fails to increase. -/
def strictIncFrom (prev : Int) : List DataPoint → List DataPoint
  | [] => []
  | dp :: rest =>
    if dp.timestamp ≤ prev then [] else dp :: strictIncFrom dp.timestamp rest

/-- Spec-side description (claim C4): the longest strictly increasing run of
records from the front of the stream. -/
def strictInc : List DataPoint → List DataPoint
  | [] => []
  | dp :: rest => dp :: strictIncFrom dp.timestamp rest

/-- Spec-side description of the merge (spec §4.5, claim C2): sorted two-way
merge by timestamp, left-biased on equal timestamps (the left point is kept,
both cursors advance), draining the remainder once one side is exhausted. -/
def mergeSpec : List DataPoint → List DataPoint → List DataPoint
  | [], ys => ys
  | xs, [] => xs
  | x :: xs, y :: ys =>
    if x.timestamp = y.timestamp then x :: mergeSpec xs ys
    else if x.timestamp < y.timestamp then x :: mergeSpec xs (y :: ys)
    else y :: mergeSpec (x :: xs) ys

/-- Claim C5's property: the series length, the index length and the values
length agree. -/
def TimeSeries.lenInv (ts : TimeSeries) : Prop :=
  ts.len = ts.index.values.length ∧ ts.len = ts.values.length

theorem new_lenInv (T : List Int) (V : List Rat) : (TimeSeries.new T V).lenInv := by
  unfold TimeSeries.lenInv TimeSeries.new TimeSeries.len DateTimeIndex.len DateTimeIndex.new
  by_cases h : T.length = V.length
  · simp [h]
  · simp [h, listResize]
    omega

theorem from_datapoints_lenInv (dps : List DataPoint) :
    (TimeSeries.from_datapoints dps).lenInv := by
  simp [TimeSeries.lenInv, TimeSeries.from_datapoints, TimeSeries.len,
    DateTimeIndex.len, DateTimeIndex.new]

theorem diff_lenInv (ts : TimeSeries) : ts.diff.lenInv := by
  unfold TimeSeries.diff
  split
  · exact new_lenInv [] []
  · exact new_lenInv _ _

theorem merge_lenInv (a b : TimeSeries) : (a.merge b).lenInv := by
  unfold TimeSeries.merge
  exact from_datapoints_lenInv _

theorem lenInv_wf {ts : TimeSeries} (h : ts.lenInv) : ts.wf := by
  unfold TimeSeries.lenInv TimeSeries.len DateTimeIndex.len at h
  exact h.2.symm.trans h.1

/-- C5: every series produced by the public constructors and operations
(`empty`, `new`, `from_datapoints`, `diff`, `merge`, and collecting an
iteration, which goes through `from_datapoints`) has its length equal to both
the index length and the values length. -/
theorem claim_C5 :
    (∀ (T : List Int) (V : List Rat), (TimeSeries.new T V).lenInv) ∧
    TimeSeries.empty.lenInv ∧
    (∀ dps : List DataPoint, (TimeSeries.from_datapoints dps).lenInv) ∧
    (∀ ts : TimeSeries, ts.diff.lenInv) ∧
    (∀ a b : TimeSeries, (a.merge b).lenInv) :=
  ⟨new_lenInv, new_lenInv [] [], from_datapoints_lenInv, diff_lenInv, merge_lenInv⟩

theorem getD_append_len {α : Type} (l₁ l₂ : List α) (d : α) :
    (l₁ ++ l₂).getD l₁.length d = l₂.getD 0 d := by
  induction l₁ with
  | nil => rfl
  | cons x xs ih => simpa using ih

theorem strictIncFrom_take (prev : Int) (rest : List DataPoint) :
    rest.take (strictIncFrom prev rest).length = strictIncFrom prev rest := by
  induction rest generalizing prev with
  | nil => rfl
  | cons r rest ih =>
    unfold strictIncFrom
    by_cases hc : r.timestamp ≤ prev
    · simp [hc]
    · simpa [hc] using ih r.timestamp

theorem fdLoop_go (rest : List DataPoint) :
    ∀ (pre : List DataPoint) (d : DataPoint),
      fdLoop ((pre ++ [d]) ++ rest) (pre.length + 1) (pre.length + 1) =
        pre.length + 1 + (strictIncFrom d.timestamp rest).length := by
  induction rest with
  | nil =>
    intro pre d
    rw [fdLoop.eq_def]
    simp [strictIncFrom]
  | cons r rest ih =>
    intro pre d
    rw [fdLoop.eq_def]
    have hlen : (pre ++ [d]).length = pre.length + 1 := by simp
    have hcond : pre.length + 1 < ((pre ++ [d]) ++ r :: rest).length := by
      simp
    rw [dif_pos hcond]
    have hget1 : ((pre ++ [d]) ++ r :: rest).getD (pre.length + 1) default = r := by
      rw [← hlen, getD_append_len]
      rfl
    have hget0 : ((pre ++ [d]) ++ r :: rest).getD (pre.length + 1 - 1) default = d := by
      rw [List.append_assoc, Nat.add_sub_cancel, getD_append_len]
      rfl
    rw [hget1, hget0]
    by_cases hc : r.timestamp ≤ d.timestamp
    · rw [if_pos hc]
      simp [strictIncFrom, hc]
    · rw [if_neg hc]
      have h2 : (pre ++ [d]) ++ r :: rest = ((pre ++ [d]) ++ [r]) ++ rest := by
        simp
      rw [h2, ← hlen]
      rw [ih (pre ++ [d]) r]
      simp [strictIncFrom, hc, hlen]
      omega

theorem fdLoop_size (dps : List DataPoint) :
    dps.take (fdLoop dps 1 1) = strictInc dps := by
  cases dps with
  | nil => simp [strictInc]
  | cons d rest =>
    have h := fdLoop_go rest [] d
    simp only [List.nil_append, List.singleton_append, List.length_nil,
      Nat.zero_add] at h
    rw [h]
    have : 1 + (strictIncFrom d.timestamp rest).length =
        (strictIncFrom d.timestamp rest).length + 1 := Nat.add_comm _ _
    rw [this, List.take_succ_cons, strictIncFrom_take]
    rfl

theorem from_datapoints_eq (dps : List DataPoint) :
    (TimeSeries.from_datapoints dps).index.values =
      (strictInc dps).map DataPoint.timestamp ∧
    (TimeSeries.from_datapoints dps).values =
      (strictInc dps).map DataPoint.value := by
  unfold TimeSeries.from_datapoints
  rw [fdLoop_size]
  exact ⟨rfl, rfl⟩

/-- C4: `from_datapoints` keeps exactly the longest strictly increasing
run of the paired stream: the result's index and values are the timestamps
and values of the records up to, but not including, the first record whose
timestamp is less than or equal to its predecessor's. -/
theorem claim_C4 (dps : List DataPoint) :
    (TimeSeries.from_datapoints dps).index.values =
      (strictInc dps).map DataPoint.timestamp ∧
    (TimeSeries.from_datapoints dps).values =
      (strictInc dps).map DataPoint.value :=
  from_datapoints_eq dps

theorem new_eq (T : List Int) (V : List Rat) (h : T.length = V.length) :
    TimeSeries.new T V = ⟨DateTimeIndex.new T, V⟩ := by
  unfold TimeSeries.new
  rw [if_neg (not_not_intro h)]

theorem diff_values_aux (V' : List Rat) : ∀ v : Rat,
    (List.range V'.length).map
        (fun i => (v :: V').getD (i + 1) 0 - (v :: V').getD i 0) =
      List.zipWith (fun a b => a - b) V' (v :: V') := by
  induction V' with
  | nil => intro v; rfl
  | cons w V'' ih =>
    intro v
    rw [List.length_cons, List.range_succ_eq_map]
    simp only [List.map_cons, List.map_map, List.zipWith_cons_cons,
      Function.comp_def, List.getD_cons_succ, List.getD_cons_zero]
    exact congrArg (fun l => (w - v) :: l) (ih w)

/-- C7: `diff` drops the first timestamp from the index and pairs it with the
consecutive value differences; the result length is the length minus one, and
series of length below 2 (for which both sides collapse to the empty list)
yield the empty series. -/
theorem claim_C7 (ts : TimeSeries) (h : ts.wf) :
    ts.diff.index.values = ts.index.values.drop 1 ∧
    ts.diff.values = List.zipWith (fun a b => a - b) (ts.values.drop 1) ts.values ∧
    ts.diff.len = ts.len - 1 := by
  have hlen_idx : ts.len = ts.index.values.length := rfl
  unfold TimeSeries.diff
  by_cases hc : ts.len < 2
  · rw [if_pos hc]
    have hidx : ts.index.values.length ≤ 1 := by omega
    have hval : ts.values.length ≤ 1 := by rw [TimeSeries.wf] at h; omega
    have hdropV : ts.values.drop 1 = [] := List.drop_eq_nil_of_le hval
    have hdropI : ts.index.values.drop 1 = [] := List.drop_eq_nil_of_le hidx
    refine ⟨?_, ?_, ?_⟩
    · rw [hdropI]; rfl
    · rw [hdropV]; rfl
    · have h0 : TimeSeries.empty.len = 0 := rfl
      omega
  · rw [if_neg hc]
    have h2 : 2 ≤ ts.len := Nat.not_lt.1 hc
    have hlens : (ts.index.values.drop 1).length =
        ((List.range (ts.len - 1)).map
          (fun i => ts.values.getD (i + 1) 0 - ts.values.getD i 0)).length := by
      simp
      omega
    rw [new_eq _ _ hlens]
    refine ⟨rfl, ?_, ?_⟩
    · obtain ⟨v, V', hV⟩ : ∃ v V', ts.values = v :: V' := by
        cases hvv : ts.values with
        | nil =>
          exfalso
          rw [TimeSeries.wf, hvv] at h
          simp at h
          omega
        | cons a l => exact ⟨a, l, rfl⟩
      rw [hV]
      have hl : ts.len - 1 = V'.length := by
        rw [TimeSeries.wf, hV] at h
        simp at h
        omega
      rw [hl]
      simpa using diff_values_aux V' v
    · simp [TimeSeries.len, DateTimeIndex.len, DateTimeIndex.new]

theorem claim_C7_witness :
    (TimeSeries.new [1, 2, 3, 4, 5] [1, 2.5, 3, 4, 3]).diff.index.values =
      [2, 3, 4, 5] ∧
    (TimeSeries.new [1, 2, 3, 4, 5] [1, 2.5, 3, 4, 3]).diff.values =
      [1.5, 0.5, 1, -1] := by
  have h := claim_C7 (TimeSeries.new [1, 2, 3, 4, 5] [1, 2.5, 3, 4, 3]) rfl
  refine ⟨?_, ?_⟩
  · rw [h.1]; rfl
  · rw [h.2.1]
    show List.zipWith _ ([(1 : ℚ), 2.5, 3, 4, 3].drop 1) [1, 2.5, 3, 4, 3] = _
    norm_num

theorem position_none (p : Int → Bool) (l : List Int)
    (h : ∀ i, i < l.length → p (l.getD i 0) = false) : position p l = none := by
  induction l with
  | nil => rfl
  | cons x xs ih =>
    unfold position
    have h0 : p x = false := h 0 (by simp)
    rw [h0]
    simp only [Bool.false_eq_true, if_false]
    rw [ih fun i hi => by simpa using h (i + 1) (by simpa using hi)]
    rfl

theorem position_some (p : Int → Bool) (l : List Int) (k : Nat)
    (hk : k < l.length) (hpk : p (l.getD k 0) = true)
    (hbefore : ∀ i, i < k → p (l.getD i 0) = false) : position p l = some k := by
  induction l generalizing k with
  | nil => simp at hk
  | cons x xs ih =>
    unfold position
    cases k with
    | zero =>
      simp only [List.getD_cons_zero] at hpk
      rw [if_pos hpk]
    | succ k' =>
      have h0 : p x = false := by simpa using hbefore 0 (Nat.succ_pos _)
      rw [h0]
      simp only [Bool.false_eq_true, if_false]
      rw [ih k' (by simpa using hk) (by simpa using hpk)
        fun i hi => by simpa using hbefore (i + 1) (by omega)]
      rfl

/-- C3: `at` is a step-function lookup.  With `pos` the first index position
whose timestamp strictly exceeds the query `t`: when no position exceeds `t`
the code uses `pos = len` and returns the last value (0 on the empty series),
and when `pos = 0` — every indexed timestamp exceeds `t` — it returns 0;
otherwise it returns the value at `pos - 1`. -/
theorem claim_C3 (ts : TimeSeries) (t : Int) (_hwf : ts.wf) :
    ((∀ i, i < ts.len → ts.index.values.getD i 0 ≤ t) →
      ts.at t = if ts.len = 0 then 0 else ts.values.getD (ts.len - 1) 0) ∧
    (∀ p, p < ts.len → t < ts.index.values.getD p 0 →
      (∀ i, i < p → ts.index.values.getD i 0 ≤ t) →
      ts.at t = if p = 0 then 0 else ts.values.getD (p - 1) 0) := by
  constructor
  · intro hall
    unfold TimeSeries.at
    have hpos : position (fun s => decide (t < s)) ts.index.values = none := by
      apply position_none
      intro i hi
      simpa using hall i hi
    rw [hpos]
    by_cases h0 : ts.len = 0
    · simp [h0]
    · simp [h0, Nat.pos_of_ne_zero h0]
  · intro p hp ht hbefore
    unfold TimeSeries.at
    have hpos : position (fun s => decide (t < s)) ts.index.values = some p := by
      apply position_some _ _ _ hp (by simpa using ht)
      intro i hi
      simpa using hbefore i hi
    rw [hpos]
    by_cases h0 : p = 0
    · simp [h0]
    · simp [h0, Nat.pos_of_ne_zero h0]

theorem claim_C3_witness :
    (TimeSeries.new [100, 160, 220] [1, 2.5, 3.2]).at 110 = 1 := by
  have h := (claim_C3 (TimeSeries.new [100, 160, 220] [1, 2.5, 3.2]) 110 rfl).2
    1 (by decide) (by decide) (by decide)
  rw [h]
  rfl

/-- C1 fails on the code: `TimeSeries::new` does not truncate to the longest
strictly increasing prefix.  For `T = [1, 1]` (increasing prefix of length 1)
and `V = [5, 6]` the claim demands a series of length `min(1, 2) = 1`, but
the constructor keeps the whole index. -/
theorem claim_C1_counterexample :
    (TimeSeries.new [1, 1] [5, 6]).index.values = [1, 1] ∧
    (TimeSeries.new [1, 1] [5, 6]).len = 2 ∧
    ¬ (TimeSeries.new [1, 1] [5, 6]).len = 1 := by
  refine ⟨rfl, rfl, by decide⟩

/-- C1 (amended): `new(T, V)` performs no truncation at all — the index is
always `T` in full, the values are `V` resized to `len(T)` (truncated when
longer, padded with 0.0 when shorter), and the series length is `len(T)`. -/
theorem claim_C1 (T : List Int) (V : List Rat) :
    (TimeSeries.new T V).index.values = T ∧
    (TimeSeries.new T V).values = V.take T.length ++ List.replicate (T.length - V.length) 0 ∧
    (TimeSeries.new T V).len = T.length := by
  unfold TimeSeries.new TimeSeries.len DateTimeIndex.len DateTimeIndex.new
  by_cases h : T.length = V.length
  · simp [h, List.take_of_length_le (le_of_eq h.symm)]
  · simp [h, listResize]

/-- C8 fails on the code for the `Index` impl: `impl Index<usize> for
DateTimeIndex` forwards to unchecked `Vec` indexing, which aborts out of
range (modelled by `.error`) instead of yielding an absent-value result. -/
theorem claim_C8_counterexample :
    (DateTimeIndex.new [1, 2, 3]).indexGet 5 = Except.error "index out of bounds" := rfl

/-- C8 (amended): `nth(pos)` with `pos ≥ length` signals absence with `None`
and never aborts; indexing the ordered index at `pos ≥ length`, however,
forwards to unchecked `Vec` indexing and aborts (modelled by `.error`). -/
theorem claim_C8 (ts : TimeSeries) (idx : DateTimeIndex) (pos qos : Nat)
    (h : ts.len ≤ pos) (h2 : idx.len ≤ qos) :
    ts.nth pos = none ∧ idx.indexGet qos = Except.error "index out of bounds" := by
  constructor
  · simp [TimeSeries.nth, Nat.not_lt.2 h]
  · unfold DateTimeIndex.indexGet
    rw [List.getElem?_eq_none h2]

theorem claim_C8_witness :
    (TimeSeries.new [1, 2] [1, 2]).nth 5 = none ∧
    (DateTimeIndex.new [1, 2]).indexGet 7 = Except.error "index out of bounds" :=
  claim_C8 (TimeSeries.new [1, 2] [1, 2]) (DateTimeIndex.new [1, 2]) 5 7
    (by decide) (by decide)

theorem rateFold_init_le (entries : List (Int × Nat)) : ∀ init : Int × Nat,
    init.2 ≤ (entries.foldl (fun max e => if e.2 > max.2 then e else max) init).2 := by
  induction entries with
  | nil => intro init; exact le_refl _
  | cons f rest ih =>
    intro init
    rw [List.foldl_cons]
    refine le_trans ?_ (ih _)
    by_cases hc : f.2 > init.2
    · rw [if_pos hc]; exact le_of_lt hc
    · rw [if_neg hc]

theorem rateFold_mem_le (entries : List (Int × Nat)) : ∀ init : Int × Nat,
    ∀ e ∈ entries,
      e.2 ≤ (entries.foldl (fun max e => if e.2 > max.2 then e else max) init).2 := by
  induction entries with
  | nil => intro init e he; simp at he
  | cons f rest ih =>
    intro init e he
    rw [List.foldl_cons]
    rcases List.mem_cons.1 he with rfl | hrest
    · refine le_trans ?_ (rateFold_init_le rest _)
      by_cases hc : e.2 > init.2
      · rw [if_pos hc]
      · rw [if_neg hc]; omega
    · exact ih _ e hrest

theorem rateFold_result (entries : List (Int × Nat)) : ∀ init : Int × Nat,
    entries.foldl (fun max e => if e.2 > max.2 then e else max) init = init ∨
      entries.foldl (fun max e => if e.2 > max.2 then e else max) init ∈ entries := by
  induction entries with
  | nil => intro init; exact Or.inl rfl
  | cons f rest ih =>
    intro init
    rw [List.foldl_cons]
    rcases ih (if f.2 > init.2 then f else init) with h | h
    · rw [h]
      by_cases hc : f.2 > init.2
      · rw [if_pos hc]; exact Or.inr (List.mem_cons_self _ _)
      · rw [if_neg hc]; exact Or.inl rfl
    · exact Or.inr (List.mem_cons_of_mem _ h)

/-- C9: for every enumeration of the occurrence table, `infer_sample_rate`
returns a most frequent adjacent difference (ties broken arbitrarily, i.e.
the result is only pinned down to having maximal count); on an index of
length below 2 it returns 0; and on `[0, 10, 15, 20, 25, 27]` it returns 5
for every enumeration order. -/
theorem claim_C9 (idx : DateTimeIndex) (entries : List (Int × Nat))
    (hocc : isOccurrenceList idx.diffs entries) :
    (idx.len < 2 → idx.infer_sample_rate entries = 0) ∧
    (2 ≤ idx.len →
      idx.infer_sample_rate entries ∈ idx.diffs ∧
      ∀ d ∈ idx.diffs,
        idx.diffs.count d ≤ idx.diffs.count (idx.infer_sample_rate entries)) ∧
    (idx.values = [0, 10, 15, 20, 25, 27] → idx.infer_sample_rate entries = 5) := by
  obtain ⟨hperm, hcount⟩ := hocc
  have hdlen : idx.diffs.length = idx.values.length - 1 := by
    unfold DateTimeIndex.diffs
    simp
  have hmode : 2 ≤ idx.len →
      idx.infer_sample_rate entries ∈ idx.diffs ∧
      ∀ d ∈ idx.diffs,
        idx.diffs.count d ≤ idx.diffs.count (idx.infer_sample_rate entries) := by
    intro h2
    have hpos : 0 < idx.diffs.length := by
      unfold DateTimeIndex.len at h2
      omega
    obtain ⟨d0, hd0⟩ := List.exists_mem_of_length_pos hpos
    have hkey : ∀ d ∈ idx.diffs, ∃ e ∈ entries, e.1 = d := by
      intro d hd
      have : d ∈ entries.map Prod.fst := hperm.mem_iff.2 (List.mem_dedup.2 hd)
      obtain ⟨e, he, hfst⟩ := List.mem_map.1 this
      exact ⟨e, he, hfst⟩
    have hmem : rateFold entries ∈ entries := by
      unfold rateFold
      rcases rateFold_result entries (0, 0) with h | h
      · exfalso
        obtain ⟨e0, he0, hfst0⟩ := hkey d0 hd0
        have hc1 : 0 < e0.2 := by
          rw [hcount e0 he0, hfst0]
          exact List.count_pos_iff.2 hd0
        have := rateFold_mem_le entries (0, 0) e0 he0
        rw [h] at this
        omega
      · exact h
    have hr2 : (rateFold entries).2 = idx.diffs.count (rateFold entries).1 :=
      hcount _ hmem
    have hr1 : (rateFold entries).1 ∈ idx.diffs := by
      have : (rateFold entries).1 ∈ entries.map Prod.fst :=
        List.mem_map_of_mem _ hmem
      exact List.mem_dedup.1 (hperm.mem_iff.1 this)
    refine ⟨hr1, ?_⟩
    intro d hd
    obtain ⟨e, he, hfst⟩ := hkey d hd
    have h1 : idx.diffs.count d = e.2 := by rw [hcount e he, hfst]
    have h2' := rateFold_mem_le entries (0, 0) e he
    unfold DateTimeIndex.infer_sample_rate
    rw [← hr2]
    unfold rateFold
    omega
  refine ⟨?_, hmode, ?_⟩
  · intro hlt
    have hnil : idx.diffs = [] := by
      unfold DateTimeIndex.len at hlt
      exact List.eq_nil_of_length_eq_zero (by omega)
    rw [hnil] at hperm
    simp only [List.dedup_nil] at hperm
    have : entries.map Prod.fst = [] := List.perm_nil.1 hperm
    have hent : entries = [] := List.map_eq_nil_iff.1 this
    rw [hent]
    rfl
  · intro hv
    have hdiffs : idx.diffs = [10, 5, 5, 5, 2] := by
      unfold DateTimeIndex.diffs
      rw [hv]
      rfl
    have h2 : 2 ≤ idx.len := by
      unfold DateTimeIndex.len
      rw [hv]
      decide
    obtain ⟨hr1, hr2⟩ := hmode h2
    rw [hdiffs] at hr1
    have h5 := hr2 5 (by rw [hdiffs]; decide)
    rw [hdiffs] at h5
    have hcnt5 : List.count 5 [10, 5, 5, 5, 2] = 3 := by decide
    rcases (by simpa using hr1 :
        idx.infer_sample_rate entries = 10 ∨ idx.infer_sample_rate entries = 5 ∨
          idx.infer_sample_rate entries = 2) with h | h | h
    · rw [h] at h5
      simp at h5
    · exact h
    · rw [h] at h5
      simp at h5

theorem claim_C9_witness :
    isOccurrenceList (DateTimeIndex.new [0, 10, 15, 20, 25, 27]).diffs
      [(10, 1), (5, 3), (2, 1)] ∧
    (DateTimeIndex.new [0, 10, 15, 20, 25, 27]).infer_sample_rate
      [(10, 1), (5, 3), (2, 1)] = 5 :=
  ⟨by constructor <;> decide,
    (claim_C9 (DateTimeIndex.new [0, 10, 15, 20, 25, 27])
      [(10, 1), (5, 3), (2, 1)] (by constructor <;> decide)).2.2 rfl⟩

/-- C10: the `PartialEq` implementations compare the value data of the left
operand with itself, so series equality follows from index equality alone
(the no-NaN proviso is automatic in the rational value model), and
`DataPoint` equality follows from timestamp equality alone. -/
theorem claim_C10 :
    (∀ a b : TimeSeries, a.index.values = b.index.values →
      TimeSeries.tsEq a b = true) ∧
    (∀ p q : DataPoint, p.timestamp = q.timestamp → DataPoint.dpEq p q = true) := by
  constructor
  · intro a b h
    simp [TimeSeries.tsEq, h]
  · intro p q h
    simp [DataPoint.dpEq, h]

theorem claim_C10_witness :
    TimeSeries.tsEq ⟨⟨[1]⟩, [1]⟩ ⟨⟨[1]⟩, [2]⟩ = true ∧
    DataPoint.dpEq ⟨1, 1⟩ ⟨1, 2⟩ = true :=
  ⟨claim_C10.1 ⟨⟨[1]⟩, [1]⟩ ⟨⟨[1]⟩, [2]⟩ rfl, claim_C10.2 ⟨1, 1⟩ ⟨1, 2⟩ rfl⟩

theorem zipWith_mk_getD (I : List Int) : ∀ (V : List Rat) (pos : Nat),
    pos < I.length → pos < V.length →
    (List.zipWith DataPoint.mk I V).getD pos default =
      ⟨I.getD pos 0, V.getD pos 0⟩ := by
  induction I with
  | nil => intro V pos h1 _; simp at h1
  | cons i I' ih =>
    intro V pos h1 h2
    cases V with
    | nil => simp at h2
    | cons v V' =>
      cases pos with
      | zero => rfl
      | succ p => simpa using ih V' p (by simpa using h1) (by simpa using h2)

theorem zipWith_mk_map_ts (I : List Int) : ∀ V : List Rat, V.length = I.length →
    (List.zipWith DataPoint.mk I V).map DataPoint.timestamp = I := by
  induction I with
  | nil => intro V _; simp
  | cons i I' ih =>
    intro V h
    cases V with
    | nil => simp at h
    | cons v V' => simpa using ih V' (by simpa using h)

theorem zipWith_mk_map_val (I : List Int) : ∀ V : List Rat, V.length = I.length →
    (List.zipWith DataPoint.mk I V).map DataPoint.value = V := by
  induction I with
  | nil =>
    intro V h
    rw [List.length_nil] at h
    rw [List.eq_nil_of_length_eq_zero h]
    rfl
  | cons i I' ih =>
    intro V h
    cases V with
    | nil => simp at h
    | cons v V' => simpa using ih V' (by simpa using h)

theorem toDataPoints_length (ts : TimeSeries) (h : ts.wf) :
    ts.toDataPoints.length = ts.len := by
  unfold TimeSeries.toDataPoints TimeSeries.wf at *
  rw [List.length_zipWith, h]
  exact Nat.min_self _

theorem toDataPoints_map_ts (ts : TimeSeries) (h : ts.wf) :
    ts.toDataPoints.map DataPoint.timestamp = ts.index.values :=
  zipWith_mk_map_ts _ _ h

theorem toDataPoints_map_val (ts : TimeSeries) (h : ts.wf) :
    ts.toDataPoints.map DataPoint.value = ts.values :=
  zipWith_mk_map_val _ _ h

theorem nth_getD (ts : TimeSeries) (h : ts.wf) (pos : Nat) (hp : pos < ts.len) :
    (ts.nth pos).getD default = ts.toDataPoints.getD pos default := by
  unfold TimeSeries.nth
  rw [if_pos hp, Option.getD_some]
  unfold TimeSeries.toDataPoints
  rw [zipWith_mk_getD _ _ _ hp (by rw [h]; exact hp)]

theorem drop_getD_cons (l : List DataPoint) (pos : Nat) (h : pos < l.length) :
    l.drop pos = l.getD pos default :: l.drop (pos + 1) := by
  rw [List.getD_eq_getElem l default h]
  exact List.drop_eq_getElem_cons h

theorem mergeSpec_nil_left (ys : List DataPoint) : mergeSpec [] ys = ys := by
  cases ys <;> simp [mergeSpec]

theorem mergeSpec_nil_right (xs : List DataPoint) : mergeSpec xs [] = xs := by
  cases xs <;> simp [mergeSpec]

theorem mergeSpec_cons_cons (x y : DataPoint) (xs ys : List DataPoint) :
    mergeSpec (x :: xs) (y :: ys) =
      if x.timestamp = y.timestamp then x :: mergeSpec xs ys
      else if x.timestamp < y.timestamp then x :: mergeSpec xs (y :: ys)
      else y :: mergeSpec (x :: xs) ys := by
  simp [mergeSpec]

theorem mergeSpec_mem (z : DataPoint) : ∀ xs ys : List DataPoint,
    z ∈ mergeSpec xs ys → z ∈ xs ∨ z ∈ ys := by
  intro xs
  induction xs with
  | nil =>
    intro ys h
    rw [mergeSpec_nil_left] at h
    exact Or.inr h
  | cons x xs ihx =>
    intro ys
    induction ys with
    | nil =>
      intro h
      rw [mergeSpec_nil_right] at h
      exact Or.inl h
    | cons y ys ihy =>
      intro h
      rw [mergeSpec_cons_cons] at h
      by_cases he : x.timestamp = y.timestamp
      · rw [if_pos he] at h
        rcases List.mem_cons.1 h with rfl | h'
        · exact Or.inl (List.mem_cons_self _ _)
        · rcases ihx ys h' with h'' | h''
          · exact Or.inl (List.mem_cons_of_mem _ h'')
          · exact Or.inr (List.mem_cons_of_mem _ h'')
      · rw [if_neg he] at h
        by_cases hlt : x.timestamp < y.timestamp
        · rw [if_pos hlt] at h
          rcases List.mem_cons.1 h with rfl | h'
          · exact Or.inl (List.mem_cons_self _ _)
          · rcases ihx (y :: ys) h' with h'' | h''
            · exact Or.inl (List.mem_cons_of_mem _ h'')
            · exact Or.inr h''
        · rw [if_neg hlt] at h
          rcases List.mem_cons.1 h with rfl | h'
          · exact Or.inr (List.mem_cons_self _ _)
          · rcases ihy h' with h'' | h''
            · exact Or.inl h''
            · exact Or.inr (List.mem_cons_of_mem _ h'')

theorem mergeSpec_pairwise : ∀ xs ys : List DataPoint,
    List.Pairwise (fun p q => p.timestamp < q.timestamp) xs →
    List.Pairwise (fun p q => p.timestamp < q.timestamp) ys →
    List.Pairwise (fun p q => p.timestamp < q.timestamp) (mergeSpec xs ys) := by
  intro xs
  induction xs with
  | nil =>
    intro ys _ hy
    rw [mergeSpec_nil_left]
    exact hy
  | cons x xs ihx =>
    intro ys
    induction ys with
    | nil =>
      intro hx _
      rw [mergeSpec_nil_right]
      exact hx
    | cons y ys ihy =>
      intro hx hy
      obtain ⟨hxhead, hxtail⟩ := List.pairwise_cons.1 hx
      obtain ⟨hyhead, hytail⟩ := List.pairwise_cons.1 hy
      rw [mergeSpec_cons_cons]
      by_cases he : x.timestamp = y.timestamp
      · rw [if_pos he]
        refine List.pairwise_cons.2 ⟨?_, ihx ys hxtail hytail⟩
        intro z hz
        rcases mergeSpec_mem z xs ys hz with h | h
        · exact hxhead z h
        · rw [he]
          exact hyhead z h
      · rw [if_neg he]
        by_cases hlt : x.timestamp < y.timestamp
        · rw [if_pos hlt]
          refine List.pairwise_cons.2 ⟨?_, ihx (y :: ys) hxtail hy⟩
          intro z hz
          rcases mergeSpec_mem z xs (y :: ys) hz with h | h
          · exact hxhead z h
          · rcases List.mem_cons.1 h with rfl | h'
            · exact hlt
            · exact lt_trans hlt (hyhead z h')
        · rw [if_neg hlt]
          refine List.pairwise_cons.2 ⟨?_, ihy hx hytail⟩
          intro z hz
          have hyx : y.timestamp < x.timestamp :=
            lt_of_le_of_ne (le_of_not_lt hlt) (fun hc => he hc.symm)
          rcases mergeSpec_mem z (x :: xs) ys hz with h | h
          · rcases List.mem_cons.1 h with rfl | h'
            · exact hyx
            · exact lt_trans hyx (hxhead z h')
          · exact hyhead z h

theorem strictIncFrom_of_pairwise : ∀ (rest : List DataPoint) (prev : Int),
    List.Pairwise (fun p q => p.timestamp < q.timestamp) rest →
    (∀ x ∈ rest, prev < x.timestamp) → strictIncFrom prev rest = rest := by
  intro rest
  induction rest with
  | nil => intro prev _ _; rfl
  | cons r rest ih =>
    intro prev hpw hall
    obtain ⟨hhead, htail⟩ := List.pairwise_cons.1 hpw
    unfold strictIncFrom
    rw [if_neg (not_le.2 (hall r (List.mem_cons_self _ _)))]
    rw [ih r.timestamp htail hhead]

theorem strictInc_of_pairwise (dps : List DataPoint)
    (h : List.Pairwise (fun p q => p.timestamp < q.timestamp) dps) :
    strictInc dps = dps := by
  cases dps with
  | nil => rfl
  | cons d rest =>
    obtain ⟨hhead, htail⟩ := List.pairwise_cons.1 h
    show d :: strictIncFrom d.timestamp rest = d :: rest
    rw [strictIncFrom_of_pairwise rest d.timestamp htail hhead]

theorem from_datapoints_sorted (dps : List DataPoint)
    (h : List.Pairwise (fun p q => p.timestamp < q.timestamp) dps) :
    TimeSeries.from_datapoints dps =
      ⟨DateTimeIndex.new (dps.map DataPoint.timestamp), dps.map DataPoint.value⟩ := by
  unfold TimeSeries.from_datapoints
  rw [fdLoop_size, strictInc_of_pairwise dps h]

theorem pairwise_toDataPoints (ts : TimeSeries) (h : ts.wf)
    (hs : List.Pairwise (· < ·) ts.index.values) :
    List.Pairwise (fun p q => p.timestamp < q.timestamp) ts.toDataPoints := by
  rw [← toDataPoints_map_ts ts h] at hs
  exact List.pairwise_map.1 hs

theorem mergeLoop_eq (a b : TimeSeries) (ha : a.wf) (hb : b.wf) :
    ∀ (n pos1 pos2 : Nat), a.len - pos1 + (b.len - pos2) ≤ n →
      TimeSeries.mergeLoop a b pos1 pos2 =
        mergeSpec (a.toDataPoints.drop pos1) (b.toDataPoints.drop pos2) := by
  have hla : a.toDataPoints.length = a.len := toDataPoints_length a ha
  have hlb : b.toDataPoints.length = b.len := toDataPoints_length b hb
  intro n
  induction n with
  | zero =>
    intro pos1 pos2 hn
    rw [TimeSeries.mergeLoop.eq_def]
    rw [dif_neg (by omega : ¬(pos1 < a.len ∨ pos2 < b.len))]
    rw [List.drop_eq_nil_of_le (by omega : a.toDataPoints.length ≤ pos1)]
    rw [List.drop_eq_nil_of_le (by omega : b.toDataPoints.length ≤ pos2)]
    rw [mergeSpec_nil_left]
  | succ n ih =>
    intro pos1 pos2 hn
    rw [TimeSeries.mergeLoop.eq_def]
    by_cases hguard : pos1 < a.len ∨ pos2 < b.len
    · rw [dif_pos hguard]
      by_cases h1 : a.len ≤ pos1
      · rw [dif_pos h1]
        have hp2 : pos2 < b.len := by omega
        rw [ih pos1 (pos2 + 1) (by omega)]
        rw [List.drop_eq_nil_of_le (by omega : a.toDataPoints.length ≤ pos1)]
        rw [mergeSpec_nil_left, mergeSpec_nil_left]
        rw [nth_getD b hb pos2 hp2]
        rw [drop_getD_cons b.toDataPoints pos2 (by omega)]
      · rw [dif_neg h1]
        have hp1 : pos1 < a.len := by omega
        by_cases h2 : b.len ≤ pos2
        · rw [dif_pos h2]
          rw [ih (pos1 + 1) pos2 (by omega)]
          rw [List.drop_eq_nil_of_le (by omega : b.toDataPoints.length ≤ pos2)]
          rw [mergeSpec_nil_right, mergeSpec_nil_right]
          rw [nth_getD a ha pos1 hp1]
          rw [drop_getD_cons a.toDataPoints pos1 (by omega)]
        · rw [dif_neg h2]
          have hp2 : pos2 < b.len := by omega
          dsimp only
          rw [ih (pos1 + 1) (pos2 + 1) (by omega), ih (pos1 + 1) pos2 (by omega),
            ih pos1 (pos2 + 1) (by omega)]
          rw [nth_getD a ha pos1 hp1, nth_getD b hb pos2 hp2]
          rw [drop_getD_cons a.toDataPoints pos1 (by omega),
            drop_getD_cons b.toDataPoints pos2 (by omega)]
          rw [mergeSpec_cons_cons]
    · rw [dif_neg hguard]
      rw [List.drop_eq_nil_of_le (by omega : a.toDataPoints.length ≤ pos1)]
      rw [List.drop_eq_nil_of_le (by omega : b.toDataPoints.length ≤ pos2)]
      rw [mergeSpec_nil_left]

/-- C2: for well-formed series with strictly increasing indices, `merge` is
exactly the sorted two-way merge by timestamp described by the spec: the
point with the smaller current timestamp is emitted, on equal timestamps
`a`'s point is emitted (`b`'s value is discarded) and both cursors advance,
and once one cursor is exhausted the remainder of the other series is
emitted unconditionally in order.  The merged point list is strictly
increasing, so the final `from_datapoints` pass keeps it whole. -/
theorem claim_C2 (a b : TimeSeries) (ha : a.wf) (hb : b.wf)
    (hsa : List.Pairwise (· < ·) a.index.values)
    (hsb : List.Pairwise (· < ·) b.index.values) :
    (a.merge b).index.values =
      (mergeSpec a.toDataPoints b.toDataPoints).map DataPoint.timestamp ∧
    (a.merge b).values =
      (mergeSpec a.toDataPoints b.toDataPoints).map DataPoint.value := by
  unfold TimeSeries.merge
  have hloop : TimeSeries.mergeLoop a b 0 0 =
      mergeSpec a.toDataPoints b.toDataPoints := by
    have h := mergeLoop_eq a b ha hb (a.len + b.len) 0 0 (by omega)
    simpa using h
  rw [hloop]
  have hpw := mergeSpec_pairwise a.toDataPoints b.toDataPoints
    (pairwise_toDataPoints a ha hsa) (pairwise_toDataPoints b hb hsb)
  rw [from_datapoints_sorted _ hpw]
  exact ⟨rfl, rfl⟩

theorem claim_C2_witness :
    ((TimeSeries.new [10, 20] [1, 2]).merge (TimeSeries.new [15, 20] [3, 4])).index.values =
      (mergeSpec (TimeSeries.new [10, 20] [1, 2]).toDataPoints
        (TimeSeries.new [15, 20] [3, 4]).toDataPoints).map DataPoint.timestamp ∧
    ((TimeSeries.new [10, 20] [1, 2]).merge (TimeSeries.new [15, 20] [3, 4])).values =
      (mergeSpec (TimeSeries.new [10, 20] [1, 2]).toDataPoints
        (TimeSeries.new [15, 20] [3, 4]).toDataPoints).map DataPoint.value :=
  claim_C2 (TimeSeries.new [10, 20] [1, 2]) (TimeSeries.new [15, 20] [3, 4])
    rfl rfl (by decide) (by decide)

/-- C6 fails on the code for arbitrary series: `merge` rebuilds its result
through `from_datapoints`, which truncates to the longest strictly
increasing run, while `new` performs no such truncation.  For
`a = new([1, 1], [5.0, 6.0])` the merge with the empty series has index
`[1]`, so the code's equality (which compares indices) rejects it. -/
theorem claim_C6_counterexample :
    TimeSeries.tsEq ((TimeSeries.new [1, 1] [5, 6]).merge TimeSeries.empty)
      (TimeSeries.new [1, 1] [5, 6]) = false := by
  have h := mergeLoop_eq (TimeSeries.new [1, 1] [5, 6]) TimeSeries.empty rfl rfl
    2 0 0 (by decide)
  simp only [List.drop_zero] at h
  rw [show TimeSeries.empty.toDataPoints = [] from rfl, mergeSpec_nil_right] at h
  have hidx : ((TimeSeries.new [1, 1] [5, 6]).merge TimeSeries.empty).index.values = [1] := by
    unfold TimeSeries.merge
    rw [h]
    exact (from_datapoints_eq _).1.trans rfl
  unfold TimeSeries.tsEq
  rw [hidx]
  simp [TimeSeries.new, DateTimeIndex.new]

/-- C6 (amended): for every well-formed series whose index is strictly
increasing — which includes every series produced by `from_datapoints`,
`merge` or `diff`-of-such, though not every output of `new` — merging with
the empty series returns a series the code's equality accepts as equal to
the original. -/
theorem claim_C6 (a : TimeSeries) (ha : a.wf)
    (hs : List.Pairwise (· < ·) a.index.values) :
    TimeSeries.tsEq (a.merge TimeSeries.empty) a = true := by
  have h := mergeLoop_eq a TimeSeries.empty ha rfl (a.len + TimeSeries.empty.len)
    0 0 (by omega)
  simp only [List.drop_zero] at h
  rw [show TimeSeries.empty.toDataPoints = [] from rfl, mergeSpec_nil_right] at h
  unfold TimeSeries.merge
  rw [h]
  rw [from_datapoints_sorted _ (pairwise_toDataPoints a ha hs)]
  unfold TimeSeries.tsEq
  have hts : a.toDataPoints.map DataPoint.timestamp = a.index.values :=
    toDataPoints_map_ts a ha
  simp [DateTimeIndex.new, hts]

theorem claim_C6_witness :
    TimeSeries.tsEq ((TimeSeries.new [1, 2] [5, 6]).merge TimeSeries.empty)
      (TimeSeries.new [1, 2] [5, 6]) = true :=
  claim_C6 (TimeSeries.new [1, 2] [5, 6]) rfl (by decide)

end Timeseries
